import Mathlib

/-!
Verification of the raster sieve filter of this repository.

The algorithm itself (connected-component labeling, region table, merge
resolution, output rewrite) is not shipped under `src/`; only its test
suite (`src/autotest/alg/sieve.py`) is.  The definitions below are
therefore modelled from the specification (spec.md §2-§7), with the
repository's tests pinning observable behaviour where the specification
leaves scheduling freedom.
-/

namespace Sieve

/-- Modelled from the spec: a pixel grid is an immutable `width × height`
array of scalar values, read row-major (spec §3). -/
structure Grid where
  w : Nat
  h : Nat
  cells : List Int

/-- Modelled from the spec: read the pixel value at row-major index `p`. -/
def gcell (g : Grid) (p : Nat) : Int := g.cells.getD p 0

/-- Modelled from the spec: the per-pixel validity predicate (spec §3);
a pixel outside the mask is invalid. -/
def validB (m : List Bool) (p : Nat) : Bool := m.getD p false

/-- Modelled from the spec: adjacency of two row-major indices under
4-connectedness (edge-adjacent only) or 8-connectedness (edge- and
corner-adjacent), with bounds respected by row/column arithmetic, no
wraparound (spec §4.1, §6). -/
def adjacentB (w c p q : Nat) : Bool :=
  (!(p == q)) &&
  (if c == 4 then
    (p % w == q % w && (p / w + 1 == q / w || q / w + 1 == p / w)) ||
    (p / w == q / w && (p % w + 1 == q % w || q % w + 1 == p % w))
  else
    (p % w ≤ q % w + 1 && q % w ≤ p % w + 1 &&
     (p / w ≤ q / w + 1 && q / w ≤ p / w + 1)))

/-- Modelled from the spec: two pixels belong to the same region step when
they are adjacent, both valid, and carry the same value (spec §4.1). -/
def stepB (g : Grid) (m : List Bool) (c : Nat) (p q : Nat) : Bool :=
  adjacentB g.w c p q && validB m p && validB m q && (gcell g p == gcell g q)

/-- Modelled from the spec: value-blind adjacency of valid pixels, the
relation underlying the region adjacency graph (spec §4.2). -/
def areaStepB (w : Nat) (m : List Bool) (c : Nat) (p q : Nat) : Bool :=
  adjacentB w c p q && validB m p && validB m q

/-- Connectivity: the reflexive transitive closure of the same-value
valid-adjacency step, i.e. membership in one maximal connected
same-value component of valid pixels. -/
def connRel (g : Grid) (m : List Bool) (c : Nat) (p q : Nat) : Prop :=
  Relation.ReflTransGen (fun a b => stepB g m c a b = true) p q

/-- Connectivity of the value-blind valid-adjacency relation: membership
in one connected valid area. -/
def areaConnRel (w : Nat) (m : List Bool) (c : Nat) (p q : Nat) : Prop :=
  Relation.ReflTransGen (fun a b => areaStepB w m c a b = true) p q

/-- Modelled from the spec: one relaxation of a pixel's provisional label,
taking the least label among the pixel itself and its same-value valid
neighbours (spec §4.1; the union-find forest is realised as repeated
least-label relaxation, which canonicalises labels the same way). -/
def nbrMin (g : Grid) (m : List Bool) (c : Nat) (l : List Nat) (p : Nat) : Nat :=
  ((List.range (g.w * g.h)).filter (fun q => stepB g m c p q)).foldl
    (fun a q => min a (l.getD q 0)) (l.getD p 0)

/-- Modelled from the spec: relax every pixel's label once. -/
def relaxL (g : Grid) (m : List Bool) (c : Nat) (l : List Nat) : List Nat :=
  (List.range (g.w * g.h)).map (fun p => nbrMin g m c l p)

/-- Iterate relaxation until a fixed point is reached (fuel-bounded). -/
def iterRelax (g : Grid) (m : List Bool) (c : Nat) : Nat → List Nat → List Nat
  | 0, l => l
  | Nat.succ fuel, l =>
      let l2 := relaxL g m c l
      if l2 = l then l else iterRelax g m c fuel l2

/-- Modelled from the spec: the canonical label grid produced by the
component labeler (spec §4.1): every valid pixel's label is the least
row-major index in its maximal connected same-value component. -/
def gridLabels (g : Grid) (m : List Bool) (c : Nat) : List Nat :=
  iterRelax g m c (g.w * g.h * (g.w * g.h) + 1) (List.range (g.w * g.h))

/-- The canonical label of pixel `p`. -/
def labelOf (g : Grid) (m : List Bool) (c : Nat) (p : Nat) : Nat :=
  (gridLabels g m c).getD p 0

/-- Modelled from the spec: the per-pixel current union-find root.
`assign` maps every initial root label to the root of the region that has
absorbed it (spec §3, §4.3); a pixel's current root is the image of its
canonical label. -/
def rootsOf (g : Grid) (m : List Bool) (c : Nat) (assign : List Nat) : List Nat :=
  (gridLabels g m c).map (fun r => assign.getD r 0)

/-- The list of valid pixel indices. -/
def validPix (g : Grid) (m : List Bool) : List Nat :=
  (List.range (g.w * g.h)).filter (fun p => validB m p)

/-- Modelled from the spec: a region's pixel count, recomputed from the
label grid (spec §4.2). -/
def rootSize (g : Grid) (m : List Bool) (rl : List Nat) (s : Nat) : Nat :=
  ((validPix g m).filter (fun p => rl.getD p 0 == s)).length

/-- Modelled from the spec: the current roots of the valid neighbours of
pixel `p` that lie in a different region, one entry per touching
pixel-pair (spec §4.2). -/
def pixNbrRoots (g : Grid) (m : List Bool) (c : Nat) (rl : List Nat) (p : Nat) : List Nat :=
  ((List.range (g.w * g.h)).filter
      (fun q => areaStepB g.w m c p q && !(rl.getD q 0 == rl.getD p 0))).map
    (fun q => rl.getD q 0)

/-- Modelled from the spec: the multiset of adjacent region roots of the
region rooted at `s`; the number of occurrences of a root `s2` in this
list is the shared-border pixel-pair weight of the edge `s`–`s2`
(spec §3, §4.2). -/
def rootNbrList (g : Grid) (m : List Bool) (c : Nat) (rl : List Nat) (s : Nat) : List Nat :=
  (((validPix g m).filter (fun p => rl.getD p 0 == s)).map
    (pixNbrRoots g m c rl)).flatten

/-- The surviving region roots (one entry per region). -/
def aliveRoots (g : Grid) (m : List Bool) (rl : List Nat) : List Nat :=
  ((validPix g m).map (fun p => rl.getD p 0)).dedup

/-- Modelled from the spec: the undersized regions that still have a
neighbour to merge into (spec §4.3). -/
def mergeCandidates (g : Grid) (m : List Bool) (c : Nat) (t : Nat) (rl : List Nat) : List Nat :=
  (aliveRoots g m rl).filter
    (fun s => rootSize g m rl s < t && !(rootNbrList g m c rl s).isEmpty)

/-- Select an element of a list by repeated pairwise comparison: `P a s`
means the incumbent `a` is displaced by the challenger `s`. -/
def choiceFold (P : Nat → Nat → Bool) (acc : Option Nat) (l : List Nat) : Option Nat :=
  l.foldl
    (fun acc s =>
      match acc with
      | none => some s
      | some a => if P a s then some s else some a)
    acc

/-- Modelled from the spec: schedule undersized regions in increasing
order of pixel count (spec §4.3 calls the order a scheduling choice; ties
are processed by larger label id, which reproduces the repository's
test expectations). -/
def pickSmall (g : Grid) (m : List Bool) (c : Nat) (t : Nat) (rl : List Nat) : Option Nat :=
  choiceFold
    (fun a s =>
      rootSize g m rl s < rootSize g m rl a
        || (rootSize g m rl s == rootSize g m rl a && a < s))
    none (mergeCandidates g m c t rl)

/-- Modelled from the spec: `s` is a strictly better merge target than `a`
for a region with neighbour multiset `wl` — greater shared-border weight,
then greater pixel count, then lower label id (spec §4.3). -/
def betterTgt (wl : List Nat) (szf : Nat → Nat) (a s : Nat) : Bool :=
  wl.count a < wl.count s
  || (wl.count a == wl.count s
      && (szf a < szf s || (szf a == szf s && s < a)))

/-- Modelled from the spec: among the adjacent regions of the undersized
region rooted at `r`, select the neighbour with the greatest shared-border
weight, tie-broken by greater pixel count, then by lowest label id
(spec §4.3). -/
def chooseTarget (g : Grid) (m : List Bool) (c : Nat) (rl : List Nat) (r : Nat) : Option Nat :=
  choiceFold (betterTgt (rootNbrList g m c rl r) (rootSize g m rl))
    none ((rootNbrList g m c rl r).dedup)

/-- Modelled from the spec: one merge-resolution step — pick the smallest
undersized region with a merge target and absorb it into the chosen
neighbour by redirecting every root that pointed at it (spec §4.3);
`none` when no undersized region has a valid merge target. -/
def mergeStep (g : Grid) (m : List Bool) (c : Nat) (t : Nat) (assign : List Nat) :
    Option (List Nat) :=
  let rl := rootsOf g m c assign
  match pickSmall g m c t rl with
  | none => none
  | some r =>
    match chooseTarget g m c rl r with
    | none => none
    | some tgt => some (assign.map (fun s => if s == r then tgt else s))

/-- Modelled from the spec: repeat merge resolution until the undersized
set is stable (spec §4.3); fuel-bounded, each step removes one region. -/
def mergeLoop (g : Grid) (m : List Bool) (c : Nat) (t : Nat) : Nat → List Nat → List Nat
  | 0, assign => assign
  | Nat.succ fuel, assign =>
    match mergeStep g m c t assign with
    | none => assign
    | some a2 => mergeLoop g m c t fuel a2

/-- The union-find forest after merge resolution has stabilised. -/
def finalAssign (g : Grid) (m : List Bool) (c : Nat) (t : Nat) : List Nat :=
  mergeLoop g m c t (g.w * g.h + 1) (List.range (g.w * g.h))

/-- Modelled from the spec: the whole sieve filter (spec §2, §4.4) — label
the grid, resolve merges, then rewrite every valid pixel to its final
root's representative value while invalid pixels pass through unchanged. -/
def sieveCore (g : Grid) (m : List Bool) (t : Nat) (c : Nat) : Grid :=
  let asg := finalAssign g m c t
  let lbl := gridLabels g m c
  { w := g.w, h := g.h,
    cells := (List.range (g.w * g.h)).map
      (fun p => if validB m p then gcell g (asg.getD (lbl.getD p 0) 0) else gcell g p) }

/-- Modelled from the spec: the effective validity mask of a call — the
explicit mask band when given, else all pixels differing from the declared
nodata sentinel, else everything valid (spec §6). -/
def effMask (g : Grid) (mask : Option (List Bool)) (nodata : Option Int) : List Bool :=
  match mask with
  | some ml => ml
  | none =>
    match nodata with
    | some nd => g.cells.map (fun v => !(v == nd))
    | none => List.replicate (g.w * g.h) true

/-- Modelled from the spec: the external sieve entry point (spec §6, §7):
validates connectedness, threshold and destination shape before any
labeling work, then runs the core filter. -/
def sieveFilter (src : Grid) (mask : Option (List Bool)) (nodata : Option Int)
    (dstW dstH : Nat) (t : Int) (c : Nat) : Except String Grid :=
  if ¬(c = 4 ∨ c = 8) then .error "connectedness must be 4 or 8"
  else if t < 1 then .error "threshold must be at least 1"
  else if ¬(dstW = src.w ∧ dstH = src.h) then .error "destination shape mismatch"
  else .ok (sieveCore src (effMask src mask nodata) t.toNat c)

/-! ### List helper lemmas -/

theorem getD_pos_of_true {l : List Bool} {p : Nat} (h : l.getD p false = true) :
    p < l.length := by
  by_contra hc
  rw [List.getD_eq_getElem?_getD, List.getElem?_eq_none (by omega)] at h
  simp at h

theorem getD_range {n p : Nat} (h : p < n) : (List.range n).getD p 0 = p := by
  rw [List.getD_eq_getElem?_getD, List.getElem?_range h]
  rfl

theorem getD_map_range {α : Type} (f : Nat → α) {n p : Nat} (d : α) (h : p < n) :
    ((List.range n).map f).getD p d = f p := by
  rw [List.getD_eq_getElem?_getD, List.getElem?_map, List.getElem?_range h]
  rfl

theorem getD_map_nat (f : Nat → Nat) {l : List Nat} {p : Nat} (h : p < l.length) :
    (l.map f).getD p 0 = f (l.getD p 0) := by
  rw [List.getD_eq_getElem?_getD, List.getElem?_map,
    List.getElem?_eq_getElem h, List.getD_eq_getElem?_getD, List.getElem?_eq_getElem h]
  rfl

theorem getD_big {α : Type} (d : α) {l : List α} {p : Nat} (h : l.length ≤ p) :
    l.getD p d = d := by
  rw [List.getD_eq_getElem?_getD, List.getElem?_eq_none h]
  rfl

theorem list_ext_getD {α : Type} (d : α) {l1 l2 : List α} (hlen : l1.length = l2.length)
    (h : ∀ i, i < l2.length → l1.getD i d = l2.getD i d) : l1 = l2 := by
  apply List.ext_getElem hlen
  intro i h1 h2
  have := h i h2
  rwa [List.getD_eq_getElem?_getD, List.getD_eq_getElem?_getD,
    List.getElem?_eq_getElem h1, List.getElem?_eq_getElem h2] at this

theorem foldl_min_le_init (h : Nat → Nat) (l : List Nat) (a : Nat) :
    l.foldl (fun x q => min x (h q)) a ≤ a := by
  induction l generalizing a with
  | nil => simp
  | cons b l ih =>
    calc (b :: l).foldl (fun x q => min x (h q)) a
        = l.foldl (fun x q => min x (h q)) (min a (h b)) := rfl
      _ ≤ min a (h b) := ih _
      _ ≤ a := min_le_left _ _

theorem foldl_min_le_mem (h : Nat → Nat) (l : List Nat) (a : Nat) {q : Nat} (hq : q ∈ l) :
    l.foldl (fun x q => min x (h q)) a ≤ h q := by
  induction l generalizing a with
  | nil => cases hq
  | cons b l ih =>
    rcases List.mem_cons.mp hq with h1 | h1
    · subst h1
      calc l.foldl (fun x q => min x (h q)) (min a (h q))
          ≤ min a (h q) := foldl_min_le_init _ _ _
        _ ≤ h q := min_le_right _ _
    · exact ih _ h1

theorem foldl_min_mem (h : Nat → Nat) (l : List Nat) (a : Nat) :
    l.foldl (fun x q => min x (h q)) a = a ∨
      ∃ q ∈ l, l.foldl (fun x q => min x (h q)) a = h q := by
  induction l generalizing a with
  | nil => exact Or.inl rfl
  | cons b l ih =>
    have step : (b :: l).foldl (fun x q => min x (h q)) a
        = l.foldl (fun x q => min x (h q)) (min a (h b)) := rfl
    rcases ih (min a (h b)) with h1 | ⟨q, hq, h1⟩
    · rcases min_cases a (h b) with ⟨h2, _⟩ | ⟨h2, _⟩
      · exact Or.inl (by rw [step, h1, h2])
      · exact Or.inr ⟨b, List.mem_cons_self _ _, by rw [step, h1, h2]⟩
    · exact Or.inr ⟨q, List.mem_cons_of_mem _ hq, by rw [step, h1]⟩

theorem sum_le_of_pointwise : ∀ {l1 l2 : List Nat}, l1.length = l2.length →
    (∀ i, i < l2.length → l1.getD i 0 ≤ l2.getD i 0) → l1.sum ≤ l2.sum := by
  intro l1
  induction l1 with
  | nil => intro l2 hlen _; simp [(List.length_eq_zero.mp hlen.symm)]
  | cons a l1 ih =>
    intro l2 hlen hpt
    cases l2 with
    | nil => simp at hlen
    | cons b l2 =>
      simp only [List.length_cons, Nat.succ_inj] at hlen
      have h0 := hpt 0 (by simp)
      simp only [List.getD_cons_zero] at h0
      have htail : ∀ i, i < l2.length → l1.getD i 0 ≤ l2.getD i 0 := by
        intro i hi
        have := hpt (i + 1) (by simp; omega)
        simpa using this
      simp only [List.sum_cons]
      exact Nat.add_le_add h0 (ih hlen htail)

theorem sum_lt_of_pointwise : ∀ {l1 l2 : List Nat}, l1.length = l2.length →
    (∀ i, i < l2.length → l1.getD i 0 ≤ l2.getD i 0) → l1 ≠ l2 → l1.sum < l2.sum := by
  intro l1
  induction l1 with
  | nil =>
    intro l2 hlen _ hne
    exact absurd (List.length_eq_zero.mp hlen.symm).symm hne
  | cons a l1 ih =>
    intro l2 hlen hpt hne
    cases l2 with
    | nil => simp at hlen
    | cons b l2 =>
      simp only [List.length_cons, Nat.succ_inj] at hlen
      have h0 := hpt 0 (by simp)
      simp only [List.getD_cons_zero] at h0
      have htail : ∀ i, i < l2.length → l1.getD i 0 ≤ l2.getD i 0 := by
        intro i hi
        have := hpt (i + 1) (by simp; omega)
        simpa using this
      simp only [List.sum_cons]
      by_cases hab : a = b
      · subst hab
        have hne2 : l1 ≠ l2 := by
          intro hc; exact hne (by rw [hc])
        exact Nat.add_lt_add_left (ih hlen htail hne2) a
      · have : a < b := lt_of_le_of_ne h0 hab
        exact Nat.add_lt_add_of_lt_of_le this (sum_le_of_pointwise hlen htail)

theorem sum_range_le_sq (n : Nat) : (List.range n).sum ≤ n * n := by
  induction n with
  | zero => simp
  | succ k ih =>
    rw [List.range_succ, List.sum_append]
    have : (k + 1) * (k + 1) = k * k + 2 * k + 1 := by ring
    simp only [List.sum_cons, List.sum_nil]
    omega

/-! ### Choice-fold lemmas -/

theorem choiceFold_cons (P : Nat → Nat → Bool) (s : Nat) (l : List Nat) :
    choiceFold P none (s :: l) = choiceFold P (some s) l := rfl

theorem choiceFold_some_acc (P : Nat → Nat → Bool) :
    ∀ (l : List Nat) (a : Nat), ∃ b, choiceFold P (some a) l = some b := by
  intro l
  induction l with
  | nil => intro a; exact ⟨a, rfl⟩
  | cons s l ih =>
    intro a
    show ∃ b, choiceFold P (if P a s then some s else some a) l = some b
    by_cases h : P a s = true
    · rw [if_pos h]; exact ih s
    · rw [if_neg h]; exact ih a

theorem choiceFold_none_iff (P : Nat → Nat → Bool) (l : List Nat) :
    choiceFold P none l = none ↔ l = [] := by
  cases l with
  | nil => simp [choiceFold]
  | cons s l =>
    rw [choiceFold_cons]
    obtain ⟨b, hb⟩ := choiceFold_some_acc P l s
    simp [hb]

theorem choiceFold_mem (P : Nat → Nat → Bool) :
    ∀ (l : List Nat) (acc : Option Nat) (b : Nat), choiceFold P acc l = some b →
      acc = some b ∨ b ∈ l := by
  intro l
  induction l with
  | nil => intro acc b h; exact Or.inl h
  | cons s l ih =>
    intro acc b h
    cases acc with
    | none =>
      rcases ih (some s) b h with h1 | h1
      · exact Or.inr (List.mem_cons.mpr (Or.inl (Option.some.inj h1).symm))
      · exact Or.inr (List.mem_cons_of_mem _ h1)
    | some a =>
      by_cases hp : P a s = true
      · have h2 : choiceFold P (some s) l = some b := by
          simpa [choiceFold, hp] using h
        rcases ih (some s) b h2 with h1 | h1
        · exact Or.inr (List.mem_cons.mpr (Or.inl (Option.some.inj h1).symm))
        · exact Or.inr (List.mem_cons_of_mem _ h1)
      · have h2 : choiceFold P (some a) l = some b := by
          simpa [choiceFold, hp] using h
        rcases ih (some a) b h2 with h1 | h1
        · exact Or.inl h1
        · exact Or.inr (List.mem_cons_of_mem _ h1)

theorem choiceFold_best (P : Nat → Nat → Bool) (R : Nat → Nat → Prop)
    (hRefl : ∀ x, R x x)
    (hTrans : ∀ x y z, R x y → R y z → R x z)
    (hTrue : ∀ a s, P a s = true → R a s)
    (hFalse : ∀ a s, P a s = false → R s a) :
    ∀ (l : List Nat) (a b : Nat), choiceFold P (some a) l = some b →
      R a b ∧ ∀ s ∈ l, R s b := by
  intro l
  induction l with
  | nil =>
    intro a b h
    have hab : a = b := Option.some.inj h
    subst hab
    exact ⟨hRefl a, by intro s hs; cases hs⟩
  | cons s l ih =>
    intro a b h
    by_cases hp : P a s = true
    · have h2 : choiceFold P (some s) l = some b := by
        simpa [choiceFold, hp] using h
      obtain ⟨hsb, hall⟩ := ih s b h2
      refine ⟨hTrans _ _ _ (hTrue _ _ hp) hsb, ?_⟩
      intro x hx
      rcases List.mem_cons.mp hx with h1 | h1
      · subst h1; exact hsb
      · exact hall x h1
    · have h2 : choiceFold P (some a) l = some b := by
        simpa [choiceFold, hp] using h
      obtain ⟨hab, hall⟩ := ih a b h2
      refine ⟨hab, ?_⟩
      intro x hx
      rcases List.mem_cons.mp hx with h1 | h1
      · subst h1
        exact hTrans _ _ _ (hFalse _ _ (Bool.not_eq_true _ ▸ hp)) hab
      · exact hall x h1

theorem choiceFold_best_none (P : Nat → Nat → Bool) (R : Nat → Nat → Prop)
    (hRefl : ∀ x, R x x)
    (hTrans : ∀ x y z, R x y → R y z → R x z)
    (hTrue : ∀ a s, P a s = true → R a s)
    (hFalse : ∀ a s, P a s = false → R s a)
    (l : List Nat) (b : Nat) (h : choiceFold P none l = some b) :
    ∀ s ∈ l, R s b := by
  cases l with
  | nil => simp [choiceFold] at h
  | cons s l =>
    rw [choiceFold_cons] at h
    obtain ⟨hsb, hall⟩ := choiceFold_best P R hRefl hTrans hTrue hFalse l s b h
    intro x hx
    rcases List.mem_cons.mp hx with h1 | h1
    · subst h1; exact hsb
    · exact hall x h1

/-! ### Basic facts about adjacency and steps -/

theorem adjacentB_symm (w c p q : Nat) : adjacentB w c p q = adjacentB w c q p := by
  simp only [adjacentB]
  rw [Bool.eq_iff_iff]
  by_cases hc : c = 4
  · simp only [hc, beq_self_eq_true, if_true, Bool.and_eq_true, Bool.or_eq_true,
      Bool.not_eq_true', beq_eq_false_iff_ne, ne_eq, beq_iff_eq]
    generalize p % w = a; generalize q % w = b
    generalize p / w = x; generalize q / w = y
    omega
  · have hc2 : (c == 4) = false := by simpa using hc
    simp only [hc2, Bool.false_eq_true, if_false, Bool.and_eq_true, Bool.not_eq_true',
      beq_eq_false_iff_ne, ne_eq, decide_eq_true_eq]
    generalize p % w = a; generalize q % w = b
    generalize p / w = x; generalize q / w = y
    omega

theorem stepB_symm (g : Grid) (m : List Bool) (c p q : Nat) :
    stepB g m c p q = stepB g m c q p := by
  simp only [stepB]
  rw [adjacentB_symm, Bool.eq_iff_iff]
  simp only [Bool.and_eq_true, beq_iff_eq]
  constructor
  · rintro ⟨⟨⟨h1, h2⟩, h3⟩, h4⟩; exact ⟨⟨⟨h1, h3⟩, h2⟩, h4.symm⟩
  · rintro ⟨⟨⟨h1, h2⟩, h3⟩, h4⟩; exact ⟨⟨⟨h1, h3⟩, h2⟩, h4.symm⟩

theorem stepB_valid_left {g : Grid} {m : List Bool} {c p q : Nat}
    (h : stepB g m c p q = true) : validB m p = true := by
  simp only [stepB, Bool.and_eq_true] at h
  exact h.1.1.2

theorem stepB_valid_right {g : Grid} {m : List Bool} {c p q : Nat}
    (h : stepB g m c p q = true) : validB m q = true := by
  simp only [stepB, Bool.and_eq_true] at h
  exact h.1.2

theorem stepB_value {g : Grid} {m : List Bool} {c p q : Nat}
    (h : stepB g m c p q = true) : gcell g p = gcell g q := by
  simp only [stepB, Bool.and_eq_true, beq_iff_eq] at h
  exact h.2

theorem stepB_area {g : Grid} {m : List Bool} {c p q : Nat}
    (h : stepB g m c p q = true) : areaStepB g.w m c p q = true := by
  simp only [stepB, Bool.and_eq_true] at h
  simp only [areaStepB, Bool.and_eq_true]
  exact h.1

theorem areaStepB_valid_left {w : Nat} {m : List Bool} {c p q : Nat}
    (h : areaStepB w m c p q = true) : validB m p = true := by
  simp only [areaStepB, Bool.and_eq_true] at h
  exact h.1.2

theorem areaStepB_valid_right {w : Nat} {m : List Bool} {c p q : Nat}
    (h : areaStepB w m c p q = true) : validB m q = true := by
  simp only [areaStepB, Bool.and_eq_true] at h
  exact h.2

theorem valid_lt {m : List Bool} {p : Nat} (h : validB m p = true) : p < m.length :=
  getD_pos_of_true h

theorem rtg_symm {α : Type} {r : α → α → Prop} (hsym : ∀ a b, r a b → r b a) {a b : α}
    (h : Relation.ReflTransGen r a b) : Relation.ReflTransGen r b a := by
  induction h with
  | refl => exact .refl
  | tail _ h2 ih => exact Relation.ReflTransGen.head (hsym _ _ h2) ih

theorem connRel_symm {g : Grid} {m : List Bool} {c p q : Nat}
    (h : connRel g m c p q) : connRel g m c q p :=
  rtg_symm (fun a b hab => (stepB_symm g m c a b) ▸ hab) h

theorem connRel_value {g : Grid} {m : List Bool} {c p q : Nat}
    (h : connRel g m c p q) : gcell g p = gcell g q := by
  induction h with
  | refl => rfl
  | tail _ h2 ih => exact ih.trans (stepB_value h2)

theorem connRel_valid {g : Grid} {m : List Bool} {c p q : Nat}
    (h : connRel g m c p q) : p = q ∨ (validB m p = true ∧ validB m q = true) := by
  induction h with
  | refl => exact Or.inl rfl
  | tail _ h2 ih =>
    rcases ih with h1 | ⟨h1, _⟩
    · exact Or.inr ⟨h1 ▸ stepB_valid_left h2, stepB_valid_right h2⟩
    · exact Or.inr ⟨h1, stepB_valid_right h2⟩

theorem connRel_area {g : Grid} {m : List Bool} {c p q : Nat}
    (h : connRel g m c p q) : areaConnRel g.w m c p q :=
  Relation.ReflTransGen.mono (fun _ _ hab => stepB_area hab) h

/-! ### Labeling correctness -/

theorem relaxL_length (g : Grid) (m : List Bool) (c : Nat) (l : List Nat) :
    (relaxL g m c l).length = g.w * g.h := by
  simp [relaxL]

theorem relaxL_getD {g : Grid} {m : List Bool} {c : Nat} (l : List Nat) {p : Nat}
    (hp : p < g.w * g.h) : (relaxL g m c l).getD p 0 = nbrMin g m c l p :=
  getD_map_range _ _ hp

theorem nbrMin_le_self (g : Grid) (m : List Bool) (c : Nat) (l : List Nat) (p : Nat) :
    nbrMin g m c l p ≤ l.getD p 0 :=
  foldl_min_le_init _ _ _

theorem relaxL_getD_le (g : Grid) (m : List Bool) (c : Nat) (l : List Nat) (p : Nat) :
    (relaxL g m c l).getD p 0 ≤ l.getD p 0 := by
  by_cases hp : p < g.w * g.h
  · rw [relaxL_getD l hp]; exact nbrMin_le_self g m c l p
  · rw [getD_big 0 (by rw [relaxL_length]; omega)]; exact Nat.zero_le _

theorem relaxL_sum_lt {g : Grid} {m : List Bool} {c : Nat} {l : List Nat}
    (hlen : l.length = g.w * g.h) (hne : relaxL g m c l ≠ l) :
    (relaxL g m c l).sum < l.sum :=
  sum_lt_of_pointwise (by rw [relaxL_length, hlen])
    (fun i _ => relaxL_getD_le g m c l i) hne

theorem iterRelax_succ (g : Grid) (m : List Bool) (c : Nat) (k : Nat) (l : List Nat) :
    iterRelax g m c (Nat.succ k) l =
      if relaxL g m c l = l then l else iterRelax g m c k (relaxL g m c l) := rfl

theorem iterRelax_fix (g : Grid) (m : List Bool) (c : Nat) :
    ∀ (fuel : Nat) (l : List Nat), l.length = g.w * g.h → l.sum < fuel →
      relaxL g m c (iterRelax g m c fuel l) = iterRelax g m c fuel l := by
  intro fuel
  induction fuel with
  | zero => intro l _ h; omega
  | succ k ih =>
    intro l hlen hsum
    by_cases he : relaxL g m c l = l
    · rw [iterRelax_succ, if_pos he, he]
    · rw [iterRelax_succ, if_neg he]
      exact ih (relaxL g m c l) (relaxL_length g m c l)
        (lt_of_lt_of_le (relaxL_sum_lt hlen he) (by omega))

theorem iterRelax_pres (g : Grid) (m : List Bool) (c : Nat) (Q : List Nat → Prop)
    (hQ : ∀ l, Q l → Q (relaxL g m c l)) :
    ∀ (fuel : Nat) (l : List Nat), Q l → Q (iterRelax g m c fuel l) := by
  intro fuel
  induction fuel with
  | zero => intro l h; exact h
  | succ k ih =>
    intro l h
    by_cases he : relaxL g m c l = l
    · rw [iterRelax_succ, if_pos he]; exact h
    · rw [iterRelax_succ, if_neg he]; exact ih _ (hQ l h)

theorem gridLabels_length (g : Grid) (m : List Bool) (c : Nat) :
    (gridLabels g m c).length = g.w * g.h := by
  have := iterRelax_pres g m c (fun l => l.length = g.w * g.h)
    (fun l _ => relaxL_length g m c l)
    (g.w * g.h * (g.w * g.h) + 1) (List.range (g.w * g.h)) (List.length_range _)
  exact this

theorem gridLabels_fix (g : Grid) (m : List Bool) (c : Nat) :
    relaxL g m c (gridLabels g m c) = gridLabels g m c := by
  apply iterRelax_fix g m c _ _ (List.length_range _)
  have := sum_range_le_sq (g.w * g.h)
  omega

theorem gridLabels_le (g : Grid) (m : List Bool) (c : Nat) (p : Nat) :
    (gridLabels g m c).getD p 0 ≤ p := by
  have := iterRelax_pres g m c (fun l => ∀ q, l.getD q 0 ≤ q)
    (fun l hl q => le_trans (relaxL_getD_le g m c l q) (hl q))
    (g.w * g.h * (g.w * g.h) + 1) (List.range (g.w * g.h)) ?_ p
  · exact this
  · intro q
    by_cases hq : q < g.w * g.h
    · rw [getD_range hq]
    · rw [getD_big 0 (by rw [List.length_range]; omega)]; exact Nat.zero_le _

theorem gridLabels_conn (g : Grid) (m : List Bool) (c : Nat) {p : Nat}
    (hp : p < g.w * g.h) : connRel g m c p ((gridLabels g m c).getD p 0) := by
  have main := iterRelax_pres g m c
    (fun l => ∀ q, q < g.w * g.h → connRel g m c q (l.getD q 0)) ?_
    (g.w * g.h * (g.w * g.h) + 1) (List.range (g.w * g.h)) ?_ p hp
  · exact main
  · intro l hl q hq
    by_cases hq2 : q < g.w * g.h
    · rw [relaxL_getD l hq2]
      rcases foldl_min_mem (fun x => l.getD x 0)
        ((List.range (g.w * g.h)).filter (fun x => stepB g m c q x)) (l.getD q 0) with
        h1 | ⟨x, hx, h1⟩
      · rw [nbrMin]; rw [h1]; exact hl q hq2
      · rw [nbrMin]; rw [h1]
        obtain ⟨hxr, hxs⟩ := List.mem_filter.mp hx
        exact Relation.ReflTransGen.head hxs (hl x (List.mem_range.mp hxr))
    · omega
  · intro q hq
    rw [getD_range hq]
    exact Relation.ReflTransGen.refl

theorem gridLabels_step_le (g : Grid) (m : List Bool) (c : Nat)
    (hm : m.length = g.w * g.h) {p q : Nat} (hstep : stepB g m c p q = true) :
    (gridLabels g m c).getD p 0 ≤ (gridLabels g m c).getD q 0 := by
  have hp : p < g.w * g.h := hm ▸ valid_lt (stepB_valid_left hstep)
  have hq : q < g.w * g.h := hm ▸ valid_lt (stepB_valid_right hstep)
  have hfix := gridLabels_fix g m c
  have h1 : (gridLabels g m c).getD p 0 = nbrMin g m c (gridLabels g m c) p := by
    conv_lhs => rw [← hfix]
    exact relaxL_getD _ hp
  rw [h1, nbrMin]
  exact foldl_min_le_mem _ _ _
    (List.mem_filter.mpr ⟨List.mem_range.mpr hq, hstep⟩)

theorem gridLabels_step_eq (g : Grid) (m : List Bool) (c : Nat)
    (hm : m.length = g.w * g.h) {p q : Nat} (hstep : stepB g m c p q = true) :
    (gridLabels g m c).getD p 0 = (gridLabels g m c).getD q 0 :=
  le_antisymm (gridLabels_step_le g m c hm hstep)
    (gridLabels_step_le g m c hm ((stepB_symm g m c p q) ▸ hstep))

theorem conn_label_eq (g : Grid) (m : List Bool) (c : Nat)
    (hm : m.length = g.w * g.h) {p q : Nat} (h : connRel g m c p q) :
    (gridLabels g m c).getD p 0 = (gridLabels g m c).getD q 0 := by
  induction h with
  | refl => rfl
  | tail _ h2 ih => exact ih.trans (gridLabels_step_eq g m c hm h2)

theorem label_eq_conn (g : Grid) (m : List Bool) (c : Nat)
    (hm : m.length = g.w * g.h) {p q : Nat} (hp : p < g.w * g.h) (hq : q < g.w * g.h)
    (h : (gridLabels g m c).getD p 0 = (gridLabels g m c).getD q 0) :
    connRel g m c p q := by
  have h1 := gridLabels_conn g m c hp
  have h2 := gridLabels_conn g m c hq
  rw [h] at h1
  exact h1.trans (connRel_symm h2)

theorem label_eq_iff_conn (g : Grid) (m : List Bool) (c : Nat)
    (hm : m.length = g.w * g.h) {p q : Nat} (hp : p < g.w * g.h) (hq : q < g.w * g.h) :
    (gridLabels g m c).getD p 0 = (gridLabels g m c).getD q 0 ↔ connRel g m c p q :=
  ⟨label_eq_conn g m c hm hp hq, conn_label_eq g m c hm⟩

theorem label_idem (g : Grid) (m : List Bool) (c : Nat)
    (hm : m.length = g.w * g.h) {p : Nat} (hp : p < g.w * g.h) :
    (gridLabels g m c).getD ((gridLabels g m c).getD p 0) 0 =
      (gridLabels g m c).getD p 0 :=
  (conn_label_eq g m c hm (gridLabels_conn g m c hp)).symm

/-! ### Merge-resolver structure lemmas -/

theorem areaStepB_symm (w : Nat) (m : List Bool) (c : Nat) (p q : Nat) :
    areaStepB w m c p q = areaStepB w m c q p := by
  simp only [areaStepB]
  rw [adjacentB_symm, Bool.eq_iff_iff]
  simp only [Bool.and_eq_true]
  constructor
  · rintro ⟨⟨h1, h2⟩, h3⟩; exact ⟨⟨h1, h3⟩, h2⟩
  · rintro ⟨⟨h1, h2⟩, h3⟩; exact ⟨⟨h1, h3⟩, h2⟩

theorem mem_validPix {g : Grid} {m : List Bool} {p : Nat} :
    p ∈ validPix g m ↔ p < g.w * g.h ∧ validB m p = true := by
  simp [validPix, List.mem_filter, List.mem_range]

theorem rootsOf_length (g : Grid) (m : List Bool) (c : Nat) (assign : List Nat) :
    (rootsOf g m c assign).length = g.w * g.h := by
  simp [rootsOf, gridLabels_length]

theorem rootsOf_getD (g : Grid) (m : List Bool) (c : Nat) (assign : List Nat)
    {p : Nat} (hp : p < g.w * g.h) :
    (rootsOf g m c assign).getD p 0 = assign.getD ((gridLabels g m c).getD p 0) 0 := by
  rw [rootsOf, getD_map_nat _ (by rw [gridLabels_length]; exact hp)]

theorem rootsOf_init (g : Grid) (m : List Bool) (c : Nat) {p : Nat} (hp : p < g.w * g.h) :
    (rootsOf g m c (List.range (g.w * g.h))).getD p 0 = (gridLabels g m c).getD p 0 := by
  rw [rootsOf_getD g m c _ hp, getD_range]
  exact lt_of_le_of_lt (gridLabels_le g m c p) hp

theorem rootsOf_merge (g : Grid) (m : List Bool) (c : Nat) {assign : List Nat}
    (hlen : assign.length = g.w * g.h) (r tgt : Nat) {p : Nat} (hp : p < g.w * g.h) :
    (rootsOf g m c (assign.map (fun s => if s == r then tgt else s))).getD p 0 =
      (if (rootsOf g m c assign).getD p 0 = r then tgt
       else (rootsOf g m c assign).getD p 0) := by
  rw [rootsOf_getD g m c _ hp, rootsOf_getD g m c _ hp,
    getD_map_nat _ (by rw [hlen]; exact lt_of_le_of_lt (gridLabels_le g m c p) hp)]
  by_cases h : assign.getD ((gridLabels g m c).getD p 0) 0 = r
  · simp [h]
  · simp [h]

theorem rootNbrList_mem {g : Grid} {m : List Bool} {c : Nat} {rl : List Nat} {s e : Nat}
    (h : e ∈ rootNbrList g m c rl s) :
    ∃ p q, p < g.w * g.h ∧ validB m p = true ∧ rl.getD p 0 = s ∧
      q < g.w * g.h ∧ areaStepB g.w m c p q = true ∧ rl.getD q 0 ≠ s ∧ rl.getD q 0 = e := by
  rw [rootNbrList, List.mem_flatten] at h
  obtain ⟨L, hL, heL⟩ := h
  obtain ⟨p, hp, hLp⟩ := List.mem_map.mp hL
  obtain ⟨hpv, hps⟩ := List.mem_filter.mp hp
  obtain ⟨hplt, hpval⟩ := mem_validPix.mp hpv
  subst hLp
  rw [pixNbrRoots, List.mem_map] at heL
  obtain ⟨q, hq, hqe⟩ := heL
  obtain ⟨hqr, hqf⟩ := List.mem_filter.mp hq
  simp only [Bool.and_eq_true, Bool.not_eq_true', beq_eq_false_iff_ne, ne_eq] at hqf
  have hps2 : rl.getD p 0 = s := by simpa using hps
  exact ⟨p, q, hplt, hpval, hps2, List.mem_range.mp hqr, hqf.1,
    by rw [← hps2]; exact hqf.2, hqe⟩

theorem rootNbrList_empty {g : Grid} {m : List Bool} {c : Nat} {rl : List Nat} {s : Nat}
    (hm : m.length = g.w * g.h) (h : rootNbrList g m c rl s = []) :
    ∀ p q, validB m p = true → rl.getD p 0 = s → areaStepB g.w m c p q = true →
      rl.getD q 0 = s := by
  intro p q hpval hps hstep
  by_contra hqs
  have hplt : p < g.w * g.h := hm ▸ valid_lt hpval
  have hqlt : q < g.w * g.h := hm ▸ valid_lt (areaStepB_valid_right hstep)
  have hmem : rl.getD q 0 ∈ rootNbrList g m c rl s := by
    rw [rootNbrList, List.mem_flatten]
    refine ⟨pixNbrRoots g m c rl p, ?_, ?_⟩
    · exact List.mem_map.mpr ⟨p, List.mem_filter.mpr
        ⟨mem_validPix.mpr ⟨hplt, hpval⟩, by simpa using hps⟩, rfl⟩
    · rw [pixNbrRoots, List.mem_map]
      refine ⟨q, List.mem_filter.mpr ⟨List.mem_range.mpr hqlt, ?_⟩, rfl⟩
      simp only [Bool.and_eq_true, Bool.not_eq_true', beq_eq_false_iff_ne, ne_eq]
      exact ⟨hstep, by rw [hps]; exact hqs⟩
  rw [h] at hmem
  cases hmem

theorem mem_aliveRoots {g : Grid} {m : List Bool} {rl : List Nat} {s : Nat} :
    s ∈ aliveRoots g m rl ↔ ∃ p, p < g.w * g.h ∧ validB m p = true ∧ rl.getD p 0 = s := by
  rw [aliveRoots, List.mem_dedup, List.mem_map]
  constructor
  · rintro ⟨p, hp, hs⟩
    obtain ⟨h1, h2⟩ := mem_validPix.mp hp
    exact ⟨p, h1, h2, hs⟩
  · rintro ⟨p, h1, h2, hs⟩
    exact ⟨p, mem_validPix.mpr ⟨h1, h2⟩, hs⟩

/-! ### The merge-loop invariant: every region's pixel set is connected -/

/-- One step between two valid adjacent pixels of the region currently
rooted at `s`. -/
def regStep (w : Nat) (m : List Bool) (c : Nat) (rl : List Nat) (s : Nat) (a b : Nat) : Prop :=
  areaStepB w m c a b = true ∧ rl.getD a 0 = s ∧ rl.getD b 0 = s

/-- Connectivity within the pixel set of the region currently rooted at `s`. -/
def regConn (w : Nat) (m : List Bool) (c : Nat) (rl : List Nat) (s : Nat) (p q : Nat) : Prop :=
  Relation.ReflTransGen (regStep w m c rl s) p q

/-- The merge-loop invariant: the forest has full length, and any two valid
pixels with the same current root are connected inside their region. -/
def assignInv (g : Grid) (m : List Bool) (c : Nat) (assign : List Nat) : Prop :=
  assign.length = g.w * g.h ∧
  ∀ p q, validB m p = true → validB m q = true →
    (rootsOf g m c assign).getD p 0 = (rootsOf g m c assign).getD q 0 →
    regConn g.w m c (rootsOf g m c assign) ((rootsOf g m c assign).getD p 0) p q

theorem regConn_lift {w : Nat} {m : List Bool} {c : Nat} {rl rl2 : List Nat} {s s2 : Nat}
    (hstep : ∀ x, validB m x = true → rl.getD x 0 = s → rl2.getD x 0 = s2) {p q : Nat}
    (h : regConn w m c rl s p q) : regConn w m c rl2 s2 p q := by
  induction h with
  | refl => exact .refl
  | tail _ h2 ih =>
    exact ih.tail ⟨h2.1, hstep _ (areaStepB_valid_left h2.1) h2.2.1,
      hstep _ (areaStepB_valid_right h2.1) h2.2.2⟩

theorem conn_to_regConn (g : Grid) (m : List Bool) (c : Nat)
    (hm : m.length = g.w * g.h) {rl : List Nat}
    (hrl : ∀ x, x < g.w * g.h → rl.getD x 0 = (gridLabels g m c).getD x 0)
    {p q : Nat} (hp : p < g.w * g.h) (h : connRel g m c p q) :
    regConn g.w m c rl (rl.getD p 0) p q := by
  induction h with
  | refl => exact .refl
  | tail h1 h2 ih =>
    rename_i b q2
    have hbval : validB m b = true := stepB_valid_left h2
    have hqval : validB m q2 = true := stepB_valid_right h2
    have hblt : b < g.w * g.h := hm ▸ valid_lt hbval
    have hqlt : q2 < g.w * g.h := hm ▸ valid_lt hqval
    refine ih.tail ⟨stepB_area h2, ?_, ?_⟩
    · rw [hrl b hblt, hrl p hp]
      exact (conn_label_eq g m c hm h1).symm
    · rw [hrl q2 hqlt, hrl p hp]
      exact (conn_label_eq g m c hm (h1.tail h2)).symm

theorem assignInv_init (g : Grid) (m : List Bool) (c : Nat)
    (hm : m.length = g.w * g.h) : assignInv g m c (List.range (g.w * g.h)) := by
  refine ⟨List.length_range _, ?_⟩
  intro p q hpv hqv heq
  have hplt : p < g.w * g.h := hm ▸ valid_lt hpv
  have hqlt : q < g.w * g.h := hm ▸ valid_lt hqv
  have hrl : ∀ x, x < g.w * g.h →
      (rootsOf g m c (List.range (g.w * g.h))).getD x 0 = (gridLabels g m c).getD x 0 :=
    fun x hx => rootsOf_init g m c hx
  apply conn_to_regConn g m c hm hrl hplt
  apply label_eq_conn g m c hm hplt hqlt
  rw [← hrl p hplt, ← hrl q hqlt]
  exact heq

theorem chooseTarget_mem {g : Grid} {m : List Bool} {c : Nat} {rl : List Nat} {r tgt : Nat}
    (h : chooseTarget g m c rl r = some tgt) : tgt ∈ rootNbrList g m c rl r := by
  rcases choiceFold_mem _ _ _ _ h with h1 | h1
  · cases h1
  · exact List.mem_dedup.mp h1

theorem pickSmall_mem {g : Grid} {m : List Bool} {c t : Nat} {rl : List Nat} {r : Nat}
    (h : pickSmall g m c t rl = some r) : r ∈ mergeCandidates g m c t rl := by
  rcases choiceFold_mem _ _ _ _ h with h1 | h1
  · cases h1
  · exact h1

theorem mergeStep_unpack {g : Grid} {m : List Bool} {c t : Nat} {assign a2 : List Nat}
    (h : mergeStep g m c t assign = some a2) :
    ∃ r tgt, pickSmall g m c t (rootsOf g m c assign) = some r ∧
      chooseTarget g m c (rootsOf g m c assign) r = some tgt ∧
      a2 = assign.map (fun s => if s == r then tgt else s) := by
  rw [mergeStep] at h
  cases hpick : pickSmall g m c t (rootsOf g m c assign) with
  | none => rw [hpick] at h; cases h
  | some r =>
    rw [hpick] at h
    replace h : (match chooseTarget g m c (rootsOf g m c assign) r with
        | none => none
        | some tgt => some (assign.map (fun s => if s == r then tgt else s))) = some a2 := h
    cases hch : chooseTarget g m c (rootsOf g m c assign) r with
    | none => rw [hch] at h; cases h
    | some tgt =>
      rw [hch] at h
      exact ⟨r, tgt, rfl, hch, (Option.some.inj h).symm⟩

theorem mergeStep_pres_inv {g : Grid} {m : List Bool} {c t : Nat} {assign a2 : List Nat}
    (hm : m.length = g.w * g.h)
    (hinv : assignInv g m c assign) (h : mergeStep g m c t assign = some a2) :
    assignInv g m c a2 := by
  obtain ⟨r, tgt, _, hchoose, ha2⟩ := mergeStep_unpack h
  obtain ⟨hlen, hconn⟩ := hinv
  obtain ⟨pb, qb, hpblt, hpbval, hpbr, hqblt, hbstep, hqbne, hqbtgt⟩ :=
    rootNbrList_mem (chooseTarget_mem hchoose)
  have hqbval : validB m qb = true := areaStepB_valid_right hbstep
  have htgtne : tgt ≠ r := fun hc => hqbne (hqbtgt.trans hc)
  subst ha2
  have hlen2 : (assign.map (fun s => if s == r then tgt else s)).length = g.w * g.h := by
    simpa using hlen
  refine ⟨hlen2, ?_⟩
  intro p q hpv hqv heq
  have hplt : p < g.w * g.h := hm ▸ valid_lt hpv
  have hqlt : q < g.w * g.h := hm ▸ valid_lt hqv
  have hf : ∀ x, x < g.w * g.h →
      (rootsOf g m c (assign.map (fun s => if s == r then tgt else s))).getD x 0 =
        (if (rootsOf g m c assign).getD x 0 = r then tgt
         else (rootsOf g m c assign).getD x 0) :=
    fun x hx => rootsOf_merge g m c hlen r tgt hx
  have hfv : ∀ x, validB m x = true →
      (rootsOf g m c (assign.map (fun s => if s == r then tgt else s))).getD x 0 =
        (if (rootsOf g m c assign).getD x 0 = r then tgt
         else (rootsOf g m c assign).getD x 0) :=
    fun x hx => hf x (hm ▸ valid_lt hx)
  by_cases hpr : (rootsOf g m c assign).getD p 0 = r
  · by_cases hqr : (rootsOf g m c assign).getD q 0 = r
    · -- both pixels were in the absorbed region
      have hroot : (rootsOf g m c (assign.map (fun s => if s == r then tgt else s))).getD p 0
          = tgt := by rw [hfv p hpv, if_pos hpr]
      rw [hroot]
      have hpath := hconn p q hpv hqv (hpr.trans hqr.symm)
      rw [hpr] at hpath
      exact regConn_lift (fun x hxv hxr => by rw [hfv x hxv, if_pos hxr]) hpath
    · -- p was absorbed, q was already in the target region
      have hq2 : (rootsOf g m c (assign.map (fun s => if s == r then tgt else s))).getD q 0
          = (rootsOf g m c assign).getD q 0 := by rw [hfv q hqv, if_neg hqr]
      have hp2 : (rootsOf g m c (assign.map (fun s => if s == r then tgt else s))).getD p 0
          = tgt := by rw [hfv p hpv, if_pos hpr]
      have hqtgt : (rootsOf g m c assign).getD q 0 = tgt := by
        rw [← hq2, ← heq, hp2]
      rw [hp2]
      have hpath1 := hconn p pb hpv hpbval (hpr.trans hpbr.symm)
      rw [hpr] at hpath1
      have hlift1 : regConn g.w m c
          (rootsOf g m c (assign.map (fun s => if s == r then tgt else s))) tgt p pb :=
        regConn_lift (fun x hxv hxr => by rw [hfv x hxv, if_pos hxr]) hpath1
      have hbridge : regStep g.w m c
          (rootsOf g m c (assign.map (fun s => if s == r then tgt else s))) tgt pb qb := by
        refine ⟨hbstep, ?_, ?_⟩
        · rw [hfv pb hpbval, if_pos hpbr]
        · rw [hfv qb hqbval, if_neg (by rw [hqbtgt]; exact htgtne), hqbtgt]
      have hpath2 := hconn qb q hqbval hqv (hqbtgt.trans hqtgt.symm)
      rw [hqbtgt] at hpath2
      have hlift2 : regConn g.w m c
          (rootsOf g m c (assign.map (fun s => if s == r then tgt else s))) tgt qb q :=
        regConn_lift
          (fun x hxv hxr => by
            rw [hfv x hxv, if_neg (by rw [hxr]; exact htgtne), hxr]) hpath2
      exact (hlift1.tail hbridge).trans hlift2
  · by_cases hqr : (rootsOf g m c assign).getD q 0 = r
    · -- q was absorbed, p was already in the target region
      have hp2 : (rootsOf g m c (assign.map (fun s => if s == r then tgt else s))).getD p 0
          = (rootsOf g m c assign).getD p 0 := by rw [hfv p hpv, if_neg hpr]
      have hq2 : (rootsOf g m c (assign.map (fun s => if s == r then tgt else s))).getD q 0
          = tgt := by rw [hfv q hqv, if_pos hqr]
      have hptgt : (rootsOf g m c assign).getD p 0 = tgt := by
        rw [← hp2, heq, hq2]
      rw [hp2, hptgt]
      have hpath1 := hconn p qb hpv hqbval (hptgt.trans hqbtgt.symm)
      rw [hptgt] at hpath1
      have hlift1 : regConn g.w m c
          (rootsOf g m c (assign.map (fun s => if s == r then tgt else s))) tgt p qb :=
        regConn_lift
          (fun x hxv hxr => by
            rw [hfv x hxv, if_neg (by rw [hxr]; exact htgtne), hxr]) hpath1
      have hbridge : regStep g.w m c
          (rootsOf g m c (assign.map (fun s => if s == r then tgt else s))) tgt qb pb := by
        refine ⟨(areaStepB_symm g.w m c pb qb) ▸ hbstep, ?_, ?_⟩
        · rw [hfv qb hqbval, if_neg (by rw [hqbtgt]; exact htgtne), hqbtgt]
        · rw [hfv pb hpbval, if_pos hpbr]
      have hpath2 := hconn pb q hpbval hqv (hpbr.trans hqr.symm)
      rw [hpbr] at hpath2
      have hlift2 : regConn g.w m c
          (rootsOf g m c (assign.map (fun s => if s == r then tgt else s))) tgt pb q :=
        regConn_lift (fun x hxv hxr => by rw [hfv x hxv, if_pos hxr]) hpath2
      exact (hlift1.tail hbridge).trans hlift2
    · -- neither region was absorbed
      have hp2 : (rootsOf g m c (assign.map (fun s => if s == r then tgt else s))).getD p 0
          = (rootsOf g m c assign).getD p 0 := by rw [hfv p hpv, if_neg hpr]
      have hpath := hconn p q hpv hqv (by
        have hq2 : (rootsOf g m c (assign.map (fun s => if s == r then tgt else s))).getD q 0
            = (rootsOf g m c assign).getD q 0 := by rw [hfv q hqv, if_neg hqr]
        rw [← hp2, ← hq2]; exact heq)
      rw [hp2]
      exact regConn_lift
        (fun x hxv hxr => by
          rw [hfv x hxv, if_neg (by rw [hxr]; exact hpr), hxr]) hpath

/-! ### Merge-loop termination and exit condition -/

/-- The set of surviving roots, as a finite set. -/
def aliveFinset (g : Grid) (m : List Bool) (rl : List Nat) : Finset Nat :=
  ((validPix g m).map (fun p => rl.getD p 0)).toFinset

theorem mem_aliveFinset {g : Grid} {m : List Bool} {rl : List Nat} {s : Nat} :
    s ∈ aliveFinset g m rl ↔
      ∃ p, p < g.w * g.h ∧ validB m p = true ∧ rl.getD p 0 = s := by
  rw [aliveFinset, List.mem_toFinset, List.mem_map]
  constructor
  · rintro ⟨p, hp, hs⟩
    obtain ⟨h1, h2⟩ := mem_validPix.mp hp
    exact ⟨p, h1, h2, hs⟩
  · rintro ⟨p, h1, h2, hs⟩
    exact ⟨p, mem_validPix.mpr ⟨h1, h2⟩, hs⟩

theorem mergeStep_alive_card {g : Grid} {m : List Bool} {c t : Nat} {assign a2 : List Nat}
    (hlen : assign.length = g.w * g.h) (h : mergeStep g m c t assign = some a2) :
    (aliveFinset g m (rootsOf g m c a2)).card <
      (aliveFinset g m (rootsOf g m c assign)).card := by
  obtain ⟨r, tgt, hpick, hchoose, ha2⟩ := mergeStep_unpack h
  obtain ⟨pb, qb, hpblt, hpbval, hpbr, hqblt, hbstep, hqbne, hqbtgt⟩ :=
    rootNbrList_mem (chooseTarget_mem hchoose)
  have hqbval : validB m qb = true := areaStepB_valid_right hbstep
  have htgtne : tgt ≠ r := fun hc => hqbne (hqbtgt.trans hc)
  subst ha2
  have hf : ∀ x, x < g.w * g.h →
      (rootsOf g m c (assign.map (fun s => if s == r then tgt else s))).getD x 0 =
        (if (rootsOf g m c assign).getD x 0 = r then tgt
         else (rootsOf g m c assign).getD x 0) :=
    fun x hx => rootsOf_merge g m c hlen r tgt hx
  apply Finset.card_lt_card
  have hsub : aliveFinset g m (rootsOf g m c (assign.map (fun s => if s == r then tgt else s)))
      ⊆ aliveFinset g m (rootsOf g m c assign) := by
    intro x hx
    obtain ⟨p, hp1, hp2, hp3⟩ := mem_aliveFinset.mp hx
    rw [hf p hp1] at hp3
    by_cases hpr : (rootsOf g m c assign).getD p 0 = r
    · rw [if_pos hpr] at hp3
      exact mem_aliveFinset.mpr ⟨qb, hqblt, hqbval, hqbtgt.trans hp3⟩
    · rw [if_neg hpr] at hp3
      exact mem_aliveFinset.mpr ⟨p, hp1, hp2, hp3⟩
  rw [Finset.ssubset_iff_of_subset hsub]
  refine ⟨r, ?_, ?_⟩
  · have hr := pickSmall_mem hpick
    rw [mergeCandidates] at hr
    obtain ⟨hralive, _⟩ := List.mem_filter.mp hr
    obtain ⟨p, hp1, hp2, hp3⟩ := mem_aliveRoots.mp hralive
    exact mem_aliveFinset.mpr ⟨p, hp1, hp2, hp3⟩
  · intro hc
    obtain ⟨p, hp1, hp2, hp3⟩ := mem_aliveFinset.mp hc
    rw [hf p hp1] at hp3
    by_cases hpr : (rootsOf g m c assign).getD p 0 = r
    · rw [if_pos hpr] at hp3
      exact htgtne hp3
    · rw [if_neg hpr] at hp3
      exact hpr hp3

theorem mergeLoop_succ (g : Grid) (m : List Bool) (c t k : Nat) (assign : List Nat) :
    mergeLoop g m c t (Nat.succ k) assign =
      match mergeStep g m c t assign with
      | none => assign
      | some a2 => mergeLoop g m c t k a2 := rfl

theorem mergeLoop_exit {g : Grid} {m : List Bool} {c t : Nat} :
    ∀ (fuel : Nat) (assign : List Nat), assign.length = g.w * g.h →
      (aliveFinset g m (rootsOf g m c assign)).card < fuel →
      mergeStep g m c t (mergeLoop g m c t fuel assign) = none := by
  intro fuel
  induction fuel with
  | zero => intro assign _ hcard; omega
  | succ k ih =>
    intro assign hlen hcard
    cases hstep : mergeStep g m c t assign with
    | none => rw [mergeLoop_succ, hstep]; exact hstep
    | some a2 =>
      rw [mergeLoop_succ, hstep]
      obtain ⟨r, tgt, _, _, ha2⟩ := mergeStep_unpack hstep
      have hlen2 : a2.length = g.w * g.h := by rw [ha2]; simpa using hlen
      have hlt := mergeStep_alive_card hlen hstep
      exact ih a2 hlen2 (by omega)

theorem mergeLoop_pres_inv {g : Grid} {m : List Bool} {c t : Nat}
    (hm : m.length = g.w * g.h) :
    ∀ (fuel : Nat) (assign : List Nat), assignInv g m c assign →
      assignInv g m c (mergeLoop g m c t fuel assign) := by
  intro fuel
  induction fuel with
  | zero => intro assign h; exact h
  | succ k ih =>
    intro assign hinv
    cases hstep : mergeStep g m c t assign with
    | none => rw [mergeLoop_succ, hstep]; exact hinv
    | some a2 =>
      rw [mergeLoop_succ, hstep]
      exact ih a2 (mergeStep_pres_inv hm hinv hstep)

theorem finalAssign_inv {g : Grid} {m : List Bool} {c t : Nat}
    (hm : m.length = g.w * g.h) : assignInv g m c (finalAssign g m c t) :=
  mergeLoop_pres_inv hm _ _ (assignInv_init g m c hm)

theorem finalAssign_exit {g : Grid} {m : List Bool} {c t : Nat} :
    mergeStep g m c t (finalAssign g m c t) = none := by
  apply mergeLoop_exit _ _ (List.length_range _)
  have h1 : (aliveFinset g m (rootsOf g m c (List.range (g.w * g.h)))).card ≤
      ((validPix g m).map
        (fun p => (rootsOf g m c (List.range (g.w * g.h))).getD p 0)).length :=
    List.toFinset_card_le _
  have h2 : ((validPix g m).map
      (fun p => (rootsOf g m c (List.range (g.w * g.h))).getD p 0)).length ≤ g.w * g.h := by
    rw [List.length_map]
    calc (validPix g m).length ≤ (List.range (g.w * g.h)).length :=
          List.length_filter_le _ _
      _ = g.w * g.h := List.length_range _
  omega

theorem mergeStep_eq (g : Grid) (m : List Bool) (c t : Nat) (assign : List Nat) :
    mergeStep g m c t assign =
      match pickSmall g m c t (rootsOf g m c assign) with
      | none => none
      | some r =>
        match chooseTarget g m c (rootsOf g m c assign) r with
        | none => none
        | some tgt => some (assign.map (fun s => if s == r then tgt else s)) := rfl

theorem mergeStep_none_pick {g : Grid} {m : List Bool} {c t : Nat} {assign : List Nat}
    (h : mergeStep g m c t assign = none) :
    pickSmall g m c t (rootsOf g m c assign) = none := by
  cases hpick : pickSmall g m c t (rootsOf g m c assign) with
  | none => rfl
  | some r =>
    exfalso
    have hr := pickSmall_mem hpick
    rw [mergeCandidates] at hr
    obtain ⟨_, hrf⟩ := List.mem_filter.mp hr
    simp only [Bool.and_eq_true, Bool.not_eq_true', List.isEmpty_eq_false_iff_exists_mem,
      decide_eq_true_eq] at hrf
    have hne : rootNbrList g m c (rootsOf g m c assign) r ≠ [] := by
      obtain ⟨_, ⟨x, hx⟩⟩ := hrf
      intro hc; rw [hc] at hx; cases hx
    have hded : (rootNbrList g m c (rootsOf g m c assign) r).dedup ≠ [] := by
      intro hc
      exact hne ((List.dedup_eq_nil _).mp hc)
    cases hch : chooseTarget g m c (rootsOf g m c assign) r with
    | none =>
      rw [chooseTarget, choiceFold_none_iff] at hch
      exact hded hch
    | some tgt =>
      rw [mergeStep_eq, hpick] at h
      replace h : (match chooseTarget g m c (rootsOf g m c assign) r with
          | none => none
          | some tgt => some (assign.map (fun s => if s == r then tgt else s)))
          = (none : Option (List Nat)) := h
      rw [hch] at h
      cases h

theorem final_post {g : Grid} {m : List Bool} {c t : Nat} :
    ∀ s ∈ aliveRoots g m (rootsOf g m c (finalAssign g m c t)),
      t ≤ rootSize g m (rootsOf g m c (finalAssign g m c t)) s ∨
        rootNbrList g m c (rootsOf g m c (finalAssign g m c t)) s = [] := by
  have hpick := mergeStep_none_pick (finalAssign_exit (g := g) (m := m) (c := c) (t := t))
  rw [pickSmall, choiceFold_none_iff, mergeCandidates] at hpick
  intro s hs
  have h1 := List.filter_eq_nil_iff.mp hpick s hs
  simp only [Bool.and_eq_true, Bool.not_eq_true', List.isEmpty_eq_false_iff_exists_mem,
    decide_eq_true_eq, not_and, not_exists] at h1
  by_cases h2 : t ≤ rootSize g m (rootsOf g m c (finalAssign g m c t)) s
  · exact Or.inl h2
  · refine Or.inr ?_
    have h3 := h1 (by omega)
    cases hlist : rootNbrList g m c (rootsOf g m c (finalAssign g m c t)) s with
    | nil => rfl
    | cons x xs =>
      exfalso
      exact h3 x (by rw [hlist]; exact List.mem_cons_self _ _)

/-! ### The rewritten output grid -/

theorem areaStepB_adj {w : Nat} {m : List Bool} {c p q : Nat}
    (h : areaStepB w m c p q = true) : adjacentB w c p q = true := by
  simp only [areaStepB, Bool.and_eq_true] at h
  exact h.1.1

theorem sieveCore_w (g : Grid) (m : List Bool) (t c : Nat) :
    (sieveCore g m t c).w = g.w := rfl

theorem sieveCore_h (g : Grid) (m : List Bool) (t c : Nat) :
    (sieveCore g m t c).h = g.h := rfl

theorem sieveCore_cells_length (g : Grid) (m : List Bool) (t c : Nat) :
    (sieveCore g m t c).cells.length = g.w * g.h := by
  simp [sieveCore]

theorem sieveCore_cell (g : Grid) (m : List Bool) (t c : Nat) {p : Nat}
    (hp : p < g.w * g.h) :
    gcell (sieveCore g m t c) p =
      if validB m p = true then
        gcell g ((finalAssign g m c t).getD ((gridLabels g m c).getD p 0) 0)
      else gcell g p := by
  show ((List.range (g.w * g.h)).map _).getD p 0 = _
  rw [getD_map_range _ _ hp]

theorem sieveCore_cell_valid (g : Grid) (m : List Bool) (t c : Nat) {p : Nat}
    (hp : p < g.w * g.h) (hv : validB m p = true) :
    gcell (sieveCore g m t c) p =
      gcell g ((rootsOf g m c (finalAssign g m c t)).getD p 0) := by
  rw [sieveCore_cell g m t c hp, if_pos hv, rootsOf_getD g m c _ hp]

theorem sieveCore_cell_invalid (g : Grid) (m : List Bool) (t c : Nat) {p : Nat}
    (hp : p < g.w * g.h) (hv : validB m p = false) :
    gcell (sieveCore g m t c) p = gcell g p := by
  rw [sieveCore_cell g m t c hp, if_neg (by simp [hv])]

theorem regStep_to_outStep {g : Grid} {m : List Bool} {t c : Nat}
    (hm : m.length = g.w * g.h) {s a b : Nat}
    (h : regStep g.w m c (rootsOf g m c (finalAssign g m c t)) s a b) :
    stepB (sieveCore g m t c) m c a b = true := by
  obtain ⟨harea, ha, hb⟩ := h
  have hav : validB m a = true := areaStepB_valid_left harea
  have hbv : validB m b = true := areaStepB_valid_right harea
  have halt : a < g.w * g.h := hm ▸ valid_lt hav
  have hblt : b < g.w * g.h := hm ▸ valid_lt hbv
  have hval : gcell (sieveCore g m t c) a = gcell (sieveCore g m t c) b := by
    rw [sieveCore_cell_valid g m t c halt hav, sieveCore_cell_valid g m t c hblt hbv,
      ha, hb]
  simp only [stepB, Bool.and_eq_true, beq_iff_eq]
  exact ⟨⟨⟨areaStepB_adj harea, hav⟩, hbv⟩, hval⟩

theorem same_root_connOut {g : Grid} {m : List Bool} {t c : Nat}
    (hm : m.length = g.w * g.h) {p q : Nat}
    (hpv : validB m p = true) (hqv : validB m q = true)
    (heq : (rootsOf g m c (finalAssign g m c t)).getD p 0 =
      (rootsOf g m c (finalAssign g m c t)).getD q 0) :
    connRel (sieveCore g m t c) m c p q := by
  have hpath := (finalAssign_inv (t := t) hm).2 p q hpv hqv heq
  exact Relation.ReflTransGen.mono (fun a b hab => regStep_to_outStep hm hab) hpath

theorem filter_length_mono {α : Type} {l : List α} {p q : α → Bool}
    (h : ∀ a ∈ l, p a = true → q a = true) :
    (l.filter p).length ≤ (l.filter q).length := by
  induction l with
  | nil => simp
  | cons a l ih =>
    have ih2 := ih (fun x hx => h x (List.mem_cons_of_mem _ hx))
    by_cases hp : p a = true
    · rw [List.filter_cons_of_pos hp, List.filter_cons_of_pos (h a (List.mem_cons_self _ _) hp)]
      simpa using ih2
    · rw [List.filter_cons_of_neg (by simpa using hp)]
      by_cases hq : q a = true
      · rw [List.filter_cons_of_pos hq]
        simp only [List.length_cons]
        omega
      · rw [List.filter_cons_of_neg (by simpa using hq)]
        exact ih2

/-- The pixel count of the maximal connected same-value component of valid
pixels containing `p` in grid `g2` (components read off the canonical label
grid; see `label_eq_iff_conn`). -/
def regionSizeAt (g2 : Grid) (m : List Bool) (c : Nat) (p : Nat) : Nat :=
  ((List.range (g2.w * g2.h)).filter
    (fun q => validB m q &&
      ((gridLabels g2 m c).getD q 0 == (gridLabels g2 m c).getD p 0))).length

theorem rootSize_eq_range (g : Grid) (m : List Bool) (rl : List Nat) (s : Nat) :
    rootSize g m rl s =
      ((List.range (g.w * g.h)).filter
        (fun p => validB m p && (rl.getD p 0 == s))).length := by
  rw [rootSize, validPix, List.filter_filter]
  congr 1
  apply List.filter_congr
  intro x _
  exact Bool.and_comm _ _

/-- The central postcondition: after the sieve, every valid pixel lies in a
maximal connected same-value output component that either meets the size
threshold or exhausts its whole connected valid area (no neighbour at all
remained to merge into). -/
theorem sieve_post_main (g : Grid) (m : List Bool) (t c : Nat)
    (hm : m.length = g.w * g.h) {p : Nat} (hpv : validB m p = true) :
    t ≤ regionSizeAt (sieveCore g m t c) m c p ∨
      (∀ q, connRel (sieveCore g m t c) m c p q ↔ areaConnRel g.w m c p q) := by
  have hplt : p < g.w * g.h := hm ▸ valid_lt hpv
  have hmo : m.length = (sieveCore g m t c).w * (sieveCore g m t c).h := hm
  have hsalive : (rootsOf g m c (finalAssign g m c t)).getD p 0 ∈
      aliveRoots g m (rootsOf g m c (finalAssign g m c t)) :=
    mem_aliveRoots.mpr ⟨p, hplt, hpv, rfl⟩
  rcases final_post _ hsalive with hsize | hnonbr
  · left
    refine le_trans hsize ?_
    rw [rootSize_eq_range, regionSizeAt]
    apply filter_length_mono
    intro a _ hcond
    simp only [Bool.and_eq_true, beq_iff_eq] at hcond
    obtain ⟨hav, har⟩ := hcond
    have hconn : connRel (sieveCore g m t c) m c p a :=
      same_root_connOut hm hpv hav har.symm
    simp only [Bool.and_eq_true, beq_iff_eq]
    exact ⟨hav, (conn_label_eq (sieveCore g m t c) m c hmo hconn).symm⟩
  · right
    intro q
    constructor
    · intro hcq
      have hcq2 : Relation.ReflTransGen
          (fun a b => stepB (sieveCore g m t c) m c a b = true) p q := hcq
      show Relation.ReflTransGen (fun a b => areaStepB g.w m c a b = true) p q
      exact Relation.ReflTransGen.mono
        (fun a b hab => @stepB_area (sieveCore g m t c) m c a b hab) hcq2
    · intro haq
      have hmain : validB m q = true ∧
          (rootsOf g m c (finalAssign g m c t)).getD q 0 =
            (rootsOf g m c (finalAssign g m c t)).getD p 0 := by
        induction haq with
        | refl => exact ⟨hpv, rfl⟩
        | tail _ h2 ih =>
          refine ⟨areaStepB_valid_right h2, ?_⟩
          exact rootNbrList_empty hm hnonbr _ _ ih.1 ih.2 h2
      exact same_root_connOut hm hpv hmain.1 hmain.2.symm

/-! ### Idempotence of the filter -/

theorem mergeLoop_add_one (g : Grid) (m : List Bool) (c t k : Nat) (assign : List Nat) :
    mergeLoop g m c t (k + 1) assign =
      match mergeStep g m c t assign with
      | none => assign
      | some a2 => mergeLoop g m c t k a2 := rfl

theorem sieve_pick_none (g : Grid) (m : List Bool) (t c : Nat)
    (hm : m.length = g.w * g.h) :
    pickSmall (sieveCore g m t c) m c t
      (rootsOf (sieveCore g m t c) m c
        (List.range ((sieveCore g m t c).w * (sieveCore g m t c).h))) = none := by
  cases hpick : pickSmall (sieveCore g m t c) m c t
      (rootsOf (sieveCore g m t c) m c
        (List.range ((sieveCore g m t c).w * (sieveCore g m t c).h))) with
  | none => rfl
  | some r =>
    exfalso
    have hmo : m.length = (sieveCore g m t c).w * (sieveCore g m t c).h := hm
    have hr := pickSmall_mem hpick
    rw [mergeCandidates] at hr
    obtain ⟨hralive, hrf⟩ := List.mem_filter.mp hr
    simp only [Bool.and_eq_true, Bool.not_eq_true', List.isEmpty_eq_false_iff_exists_mem,
      decide_eq_true_eq] at hrf
    obtain ⟨p0, hp0lt, hp0v, hp0r⟩ := mem_aliveRoots.mp hralive
    have hrl2 : ∀ x, x < (sieveCore g m t c).w * (sieveCore g m t c).h →
        (rootsOf (sieveCore g m t c) m c
          (List.range ((sieveCore g m t c).w * (sieveCore g m t c).h))).getD x 0 =
          (gridLabels (sieveCore g m t c) m c).getD x 0 :=
      fun x hx => rootsOf_init (sieveCore g m t c) m c hx
    rcases sieve_post_main g m t c hm hp0v with hsize | hiff
    · have heqsz : rootSize (sieveCore g m t c) m
          (rootsOf (sieveCore g m t c) m c
            (List.range ((sieveCore g m t c).w * (sieveCore g m t c).h))) r =
          regionSizeAt (sieveCore g m t c) m c p0 := by
        rw [rootSize_eq_range, regionSizeAt]
        congr 1
        apply List.filter_congr
        intro x hx
        rw [List.mem_range] at hx
        rw [hrl2 x hx, ← hp0r, hrl2 p0 hp0lt]
      omega
    · obtain ⟨e, he⟩ := hrf.2
      obtain ⟨x, y, hxlt, _, hxr, hylt, hstep, hyne, _⟩ := rootNbrList_mem he
      have hlx : (gridLabels (sieveCore g m t c) m c).getD x 0 =
          (gridLabels (sieveCore g m t c) m c).getD p0 0 := by
        rw [← hrl2 x hxlt, ← hrl2 p0 hp0lt, hxr, hp0r]
      have hcx : connRel (sieveCore g m t c) m c p0 x :=
        label_eq_conn (sieveCore g m t c) m c hmo hp0lt hxlt hlx.symm
      have hax : areaConnRel g.w m c p0 x := (hiff x).mp hcx
      have hay : areaConnRel g.w m c p0 y := by
        refine Relation.ReflTransGen.tail hax ?_
        exact hstep
      have hcy : connRel (sieveCore g m t c) m c p0 y := (hiff y).mpr hay
      have hly := conn_label_eq (sieveCore g m t c) m c hmo hcy
      apply hyne
      rw [hrl2 y hylt, ← hly, ← hrl2 p0 hp0lt, hp0r]

theorem sieveCore_idem_main (g : Grid) (m : List Bool) (t c : Nat)
    (hm : m.length = g.w * g.h) :
    sieveCore (sieveCore g m t c) m t c = sieveCore g m t c := by
  have hstep2 : mergeStep (sieveCore g m t c) m c t
      (List.range ((sieveCore g m t c).w * (sieveCore g m t c).h)) = none := by
    rw [mergeStep_eq, sieve_pick_none g m t c hm]
  have hfin : finalAssign (sieveCore g m t c) m c t =
      List.range ((sieveCore g m t c).w * (sieveCore g m t c).h) := by
    rw [finalAssign, mergeLoop_add_one, hstep2]
  have hcells : (sieveCore (sieveCore g m t c) m t c).cells = (sieveCore g m t c).cells := by
    apply list_ext_getD 0
    · rw [sieveCore_cells_length, sieveCore_cells_length]
      rfl
    · intro i hi
      rw [sieveCore_cells_length] at hi
      have hilt : i < (sieveCore g m t c).w * (sieveCore g m t c).h := hi
      show gcell (sieveCore (sieveCore g m t c) m t c) i = gcell (sieveCore g m t c) i
      rw [sieveCore_cell (sieveCore g m t c) m t c hilt, hfin]
      by_cases hv : validB m i = true
      · rw [if_pos hv, getD_range
          (lt_of_le_of_lt (gridLabels_le (sieveCore g m t c) m c i) hilt)]
        exact (connRel_value (gridLabels_conn (sieveCore g m t c) m c hilt)).symm
      · rw [if_neg hv]
  have heta : sieveCore (sieveCore g m t c) m t c =
      { w := (sieveCore g m t c).w, h := (sieveCore g m t c).h,
        cells := (sieveCore (sieveCore g m t c) m t c).cells } := rfl
  rw [heta, hcells]

/-! ### Merge-target selection order -/

/-- The merge-target preference order: `tgtRank wl szf s b` states that `b`
is preferred at least as much as `s` — greater shared-border weight in the
neighbour multiset `wl`, then greater pixel count, then lower label id. -/
def tgtRank (wl : List Nat) (szf : Nat → Nat) (s b : Nat) : Prop :=
  wl.count s < wl.count b ∨
    (wl.count s = wl.count b ∧
      (szf s < szf b ∨ (szf s = szf b ∧ b ≤ s)))

theorem chooseTarget_best {g : Grid} {m : List Bool} {c : Nat} {rl : List Nat} {r tgt : Nat}
    (h : chooseTarget g m c rl r = some tgt) :
    tgt ∈ rootNbrList g m c rl r ∧
      ∀ s ∈ rootNbrList g m c rl r,
        tgtRank (rootNbrList g m c rl r) (rootSize g m rl) s tgt := by
  refine ⟨chooseTarget_mem h, ?_⟩
  intro s hs
  have hdedup : s ∈ (rootNbrList g m c rl r).dedup := List.mem_dedup.mpr hs
  refine choiceFold_best_none
    (betterTgt (rootNbrList g m c rl r) (rootSize g m rl))
    (tgtRank (rootNbrList g m c rl r) (rootSize g m rl))
    ?_ ?_ ?_ ?_ _ _ h _ hdedup
  · intro x
    exact Or.inr ⟨rfl, Or.inr ⟨rfl, le_refl x⟩⟩
  · intro x y z h1 h2
    simp only [tgtRank] at h1 h2 ⊢
    omega
  · intro a s2 hp
    simp only [betterTgt, Bool.or_eq_true, Bool.and_eq_true, decide_eq_true_eq,
      beq_iff_eq] at hp
    simp only [tgtRank]
    omega
  · intro a s2 hp
    simp only [betterTgt, Bool.or_eq_false_iff, Bool.and_eq_false_iff,
      decide_eq_false_iff_not, beq_eq_false_iff_ne, ne_eq, not_lt] at hp
    simp only [tgtRank]
    omega

/-! ### Pass-through helpers -/

theorem validB_replicate_false (n p : Nat) :
    validB (List.replicate n false) p = false := by
  rw [validB, List.getD_eq_getElem?_getD]
  cases h : (List.replicate n false)[p]? with
  | none => rfl
  | some b =>
    have := List.getElem?_mem h
    rw [List.eq_of_mem_replicate this]
    rfl

theorem sieveFilter_ok {src : Grid} {mask : Option (List Bool)} {nodata : Option Int}
    {dstW dstH : Nat} {t : Int} {c : Nat} {out : Grid}
    (h : sieveFilter src mask nodata dstW dstH t c = Except.ok out) :
    out = sieveCore src (effMask src mask nodata) t.toNat c := by
  rw [sieveFilter] at h
  split at h
  · cases h
  · split at h
    · cases h
    · split at h
      · cases h
      · exact (Except.ok.inj h).symm

/-! ### Claim theorems -/

set_option maxRecDepth 100000

/-- C1: for every input grid, validity mask, size threshold and
connectedness, every maximal connected same-value component of valid
output pixels either has pixel count at least `sizeThreshold`, or
coincides with its entire connected valid area — the latter is a region
with no neighbour at all left to merge into, of which a connected valid
area can contain at most one. -/
theorem sieve_no_small_regions (g : Grid) (m : List Bool) (t c : Nat) (p : Nat)
    (hm : m.length = g.w * g.h) (hpv : validB m p = true) :
    t ≤ regionSizeAt (sieveCore g m t c) m c p ∨
      (∀ q, connRel (sieveCore g m t c) m c p q ↔ areaConnRel g.w m c p q) :=
  sieve_post_main g m t c hm hpv

/-- Witness for C1: the postcondition instantiated at a concrete 2×1 grid. -/
theorem sieve_no_small_regions_witness :
    1 ≤ regionSizeAt (sieveCore ⟨2, 1, [3, 3]⟩ [true, true] 1 4) [true, true] 4 0 ∨
      (∀ q, connRel (sieveCore ⟨2, 1, [3, 3]⟩ [true, true] 1 4) [true, true] 4 0 q ↔
        areaConnRel 2 [true, true] 4 0 q) :=
  sieve_no_small_regions ⟨2, 1, [3, 3]⟩ [true, true] 1 4 0 (by decide) (by decide)

/-- C2: every pixel that is invalid under the effective validity mask
(explicit mask band, or otherwise derivation from the declared nodata
sentinel) is emitted with its original input value, unchanged. -/
theorem sieve_invalid_passthrough (src : Grid) (mask : Option (List Bool))
    (nodata : Option Int) (dstW dstH : Nat) (t : Int) (c : Nat) (out : Grid) (p : Nat)
    (hok : sieveFilter src mask nodata dstW dstH t c = Except.ok out)
    (hp : p < src.w * src.h)
    (hinv : validB (effMask src mask nodata) p = false) :
    gcell out p = gcell src p := by
  rw [sieveFilter_ok hok]
  exact sieveCore_cell_invalid src _ _ _ hp hinv

/-- Witness for C2: a masked 1×1 pixel passes through unchanged. -/
theorem sieve_invalid_passthrough_witness :
    gcell (sieveCore ⟨1, 1, [5]⟩ [false] 1 4) 0 = gcell ⟨1, 1, [5]⟩ 0 :=
  sieve_invalid_passthrough ⟨1, 1, [5]⟩ (some [false]) none 1 1 1 4
    (sieveCore ⟨1, 1, [5]⟩ [false] 1 4) 0 rfl (by decide) (by decide)

/-- C3: with a wholly invalid (all-masked) source, the filter performs no
merging and returns the input byte for byte; in the functional model the
same equation covers both a fresh destination and in-place operation. -/
theorem sieve_all_masked_identity (g : Grid) (t c : Nat)
    (hg : g.cells.length = g.w * g.h) :
    sieveCore g (List.replicate (g.w * g.h) false) t c = g := by
  have hcells : (sieveCore g (List.replicate (g.w * g.h) false) t c).cells = g.cells := by
    apply list_ext_getD 0
    · rw [sieveCore_cells_length, hg]
    · intro i hi
      rw [hg] at hi
      show gcell (sieveCore g (List.replicate (g.w * g.h) false) t c) i = g.cells.getD i 0
      rw [sieveCore_cell_invalid g _ t c hi (validB_replicate_false _ _)]
      rfl
  have heta : sieveCore g (List.replicate (g.w * g.h) false) t c =
      { w := g.w, h := g.h,
        cells := (sieveCore g (List.replicate (g.w * g.h) false) t c).cells } := rfl
  rw [heta, hcells]

/-- Witness for C3: a concrete all-masked 2×1 grid is returned unchanged. -/
theorem sieve_all_masked_identity_witness :
    sieveCore ⟨2, 1, [7, 8]⟩ (List.replicate (2 * 1) false) 3 4 = ⟨2, 1, [7, 8]⟩ :=
  sieve_all_masked_identity ⟨2, 1, [7, 8]⟩ 3 4 (by decide)

/-- C4: the filter is idempotent at a fixed threshold and connectedness —
running it again on its own output (with the same validity mask) returns
that output unchanged. -/
theorem sieve_idempotent (g : Grid) (m : List Bool) (t c : Nat)
    (hm : m.length = g.w * g.h) :
    sieveCore (sieveCore g m t c) m t c = sieveCore g m t c :=
  sieveCore_idem_main g m t c hm

/-- Witness for C4: idempotence at a concrete 2×1 grid. -/
theorem sieve_idempotent_witness :
    sieveCore (sieveCore ⟨2, 1, [3, 4]⟩ [true, true] 2 4) [true, true] 2 4 =
      sieveCore ⟨2, 1, [3, 4]⟩ [true, true] 2 4 :=
  sieve_idempotent ⟨2, 1, [3, 4]⟩ [true, true] 2 4 (by decide)

/-- C5: whenever merge resolution selects a target for an undersized
region, that target is an adjacent region maximising the shared-border
pixel-pair weight; on ties the neighbour with greater pixel count wins,
and on remaining ties the lowest numeric label id wins. -/
theorem sieve_merge_target_argmax (g : Grid) (m : List Bool) (c : Nat)
    (rl : List Nat) (r tgt : Nat)
    (h : chooseTarget g m c rl r = some tgt) :
    tgt ∈ rootNbrList g m c rl r ∧
      ∀ s ∈ rootNbrList g m c rl r,
        (rootNbrList g m c rl r).count s < (rootNbrList g m c rl r).count tgt ∨
          ((rootNbrList g m c rl r).count s = (rootNbrList g m c rl r).count tgt ∧
            (rootSize g m rl s < rootSize g m rl tgt ∨
              (rootSize g m rl s = rootSize g m rl tgt ∧ tgt ≤ s))) := by
  have h2 := chooseTarget_best h
  exact ⟨h2.1, fun s hs => h2.2 s hs⟩

/-- Witness for C5: the selection property at a concrete two-region state. -/
theorem sieve_merge_target_argmax_witness :
    1 ∈ rootNbrList ⟨2, 1, [1, 2]⟩ [true, true] 4 [0, 1] 0 ∧
      ∀ s ∈ rootNbrList ⟨2, 1, [1, 2]⟩ [true, true] 4 [0, 1] 0,
        (rootNbrList ⟨2, 1, [1, 2]⟩ [true, true] 4 [0, 1] 0).count s <
            (rootNbrList ⟨2, 1, [1, 2]⟩ [true, true] 4 [0, 1] 0).count 1 ∨
          ((rootNbrList ⟨2, 1, [1, 2]⟩ [true, true] 4 [0, 1] 0).count s =
              (rootNbrList ⟨2, 1, [1, 2]⟩ [true, true] 4 [0, 1] 0).count 1 ∧
            (rootSize ⟨2, 1, [1, 2]⟩ [true, true] [0, 1] s <
                rootSize ⟨2, 1, [1, 2]⟩ [true, true] [0, 1] 1 ∨
              (rootSize ⟨2, 1, [1, 2]⟩ [true, true] [0, 1] s =
                  rootSize ⟨2, 1, [1, 2]⟩ [true, true] [0, 1] 1 ∧ 1 ≤ s))) :=
  sieve_merge_target_argmax ⟨2, 1, [1, 2]⟩ [true, true] 4 [0, 1] 0 1 (by decide)

/-- C6: on the repository's 7×7 propagation grid (many tiny regions of
sizes 1–4 around a dominant zero-valued border region), sieving with
threshold 4 and 4-connectedness collapses every small region, through
chained transitive merges, into the dominant region: the output is
uniformly zero. -/
theorem sieve_propagation_collapse :
    (sieveCore ⟨7, 7,
      [0, 0, 0, 0, 0, 0, 0,
       0, 5, 5, 0, 0, 0, 0,
       0, 5, 2, 3, 4, 0, 0,
       0, 0, 8, 1, 5, 0, 0,
       0, 0, 7, 6, 5, 9, 0,
       0, 0, 0, 0, 9, 9, 0,
       0, 0, 0, 0, 0, 0, 0]⟩
      (List.replicate 49 true) 4 4).cells = List.replicate 49 0 := by decide

/-- C7: the filter is deterministic — two invocations on equal inputs
produce equal outputs. -/
theorem sieve_deterministic (g1 g2 : Grid) (m1 m2 : List Bool) (t1 t2 c1 c2 : Nat)
    (hg : g1 = g2) (hmk : m1 = m2) (ht : t1 = t2) (hc : c1 = c2) :
    sieveCore g1 m1 t1 c1 = sieveCore g2 m2 t2 c2 := by
  subst hg; subst hmk; subst ht; subst hc
  rfl

/-- Witness for C7: determinism at a concrete invocation. -/
theorem sieve_deterministic_witness :
    sieveCore ⟨1, 1, [2]⟩ [true] 1 4 = sieveCore ⟨1, 1, [2]⟩ [true] 1 4 :=
  sieve_deterministic ⟨1, 1, [2]⟩ ⟨1, 1, [2]⟩ [true] [true] 1 1 4 4 rfl rfl rfl rfl

/-- C8 counterexample: a diagonal pair of 1-valued pixels inside a sea of
2s, threshold 2.  Under 8-connectedness the pair is a single region of
size 2 and the whole grid is retained verbatim, while under
4-connectedness both 1-pixels are singletons and are merged away — a
region retained under 8-connectedness that 4-connectedness does not
retain, refuting the claim's "never the reverse". -/
theorem sieve_connectivity_counterexample :
    (sieveCore ⟨4, 4, [2, 2, 2, 2, 2, 1, 2, 2, 2, 2, 1, 2, 2, 2, 2, 2]⟩
        (List.replicate 16 true) 2 8).cells =
      [2, 2, 2, 2, 2, 1, 2, 2, 2, 2, 1, 2, 2, 2, 2, 2] ∧
    (sieveCore ⟨4, 4, [2, 2, 2, 2, 2, 1, 2, 2, 2, 2, 1, 2, 2, 2, 2, 2]⟩
        (List.replicate 16 true) 2 4).cells = List.replicate 16 2 := by decide

/-- C8 amended: retention is not monotone in connectedness in either
direction.  The diagonal-pair grid shows a pixel (index 5, value 1)
retained under 8-connectedness but merged away under 4-connectedness; a
masked 4×4 grid shows a pixel (index 0, value 1) retained under
4-connectedness but merged away under 8-connectedness, because the extra
diagonal adjacencies redirect the merge cascade. -/
theorem sieve_connectivity_both_directions :
    ((sieveCore ⟨4, 4, [2, 2, 2, 2, 2, 1, 2, 2, 2, 2, 1, 2, 2, 2, 2, 2]⟩
          (List.replicate 16 true) 2 8).cells.getD 5 0 = 1 ∧
      (sieveCore ⟨4, 4, [2, 2, 2, 2, 2, 1, 2, 2, 2, 2, 1, 2, 2, 2, 2, 2]⟩
          (List.replicate 16 true) 2 4).cells.getD 5 0 = 2) ∧
    ((sieveCore ⟨4, 4, [1, 9, 2, 2, 1, 7, 9, 2, 9, 9, 2, 2, 9, 9, 9, 9]⟩
          [true, false, true, true, true, true, false, true,
           false, false, true, true, false, false, false, false] 3 4).cells.getD 0 0 = 1 ∧
      (sieveCore ⟨4, 4, [1, 9, 2, 2, 1, 7, 9, 2, 9, 9, 2, 2, 9, 9, 9, 9]⟩
          [true, false, true, true, true, true, false, true,
           false, false, true, true, false, false, false, false] 3 8).cells.getD 0 0 = 2) := by
  decide

/-- C9: a connectedness other than 4 or 8, a non-positive threshold, or a
destination shape differing from the source makes the call fail before any
labeling work; no output grid is produced. -/
theorem sieve_config_error (src : Grid) (mask : Option (List Bool)) (nodata : Option Int)
    (dstW dstH : Nat) (t : Int) (c : Nat)
    (hbad : ¬(c = 4 ∨ c = 8) ∨ t < 1 ∨ ¬(dstW = src.w ∧ dstH = src.h)) :
    ∃ e, sieveFilter src mask nodata dstW dstH t c = Except.error e := by
  rw [sieveFilter]
  by_cases h1 : ¬(c = 4 ∨ c = 8)
  · rw [if_pos h1]; exact ⟨_, rfl⟩
  · rw [if_neg h1]
    by_cases h2 : t < 1
    · rw [if_pos h2]; exact ⟨_, rfl⟩
    · rw [if_neg h2]
      have h3 : ¬(dstW = src.w ∧ dstH = src.h) := by tauto
      rw [if_pos h3]; exact ⟨_, rfl⟩

/-- Witness for C9: connectedness 5 is rejected. -/
theorem sieve_config_error_witness :
    ∃ e, sieveFilter ⟨1, 1, [0]⟩ none none 1 1 1 5 = Except.error e :=
  sieve_config_error ⟨1, 1, [0]⟩ none none 1 1 1 5 (Or.inl (by decide))

/-- C10: with no declared nodata sentinel, an explicit mask band marking
every pixel valid produces exactly the call with no mask at all. -/
theorem sieve_opaque_mask_eq_nomask (src : Grid) (dstW dstH : Nat) (t : Int) (c : Nat) :
    sieveFilter src (some (List.replicate (src.w * src.h) true)) none dstW dstH t c =
      sieveFilter src none none dstW dstH t c := rfl

end Sieve
